import Mathlib

/-!
Verification of the array-backed object mapping engine and the notebook's
numeric kernels.

The repository's Numba/OAMap notebook drives an object-array mapping layer:
schema-described datasets stored as flat arrays (content plus starts/stops
offset arrays), lazy proxies for interactive access, transforms
(`define`/`filter`/`project`/`flatten`) that derive new datasets without
copying shared arrays, and a compiled path that turns proxy access chains
into direct index arithmetic.  The engine itself is consumed by the notebook,
not implemented in it, so the engine definitions below are modelled from the
design specification; the numeric kernels (`mass_python`, `mass_numpy`,
`mass_equivalent_numpy`, the `has2muons`/`firsts`/`seconds` selection) are
embedded directly from the notebook source.  Floating-point `sqrt`/`cosh`/
`cos` are abstracted as opaque operations over a commutative ring, so every
equivalence proved here is an equivalence of the exact expression read from
the source, independent of the numeric interpretation.
-/

/-- Modelled from the spec: the error taxonomy of section 7.  `unknownPath`
for absent schema paths, `outOfBounds` for the `IndexError`/`OutOfBoundsError`
family (index outside the valid range), `badIndex` for the distinct rejection
of a negative logical index, `schemaError` for an operation incompatible with
a node kind, and `backendError` for a missing physical array (a backend I/O
failure propagated verbatim). -/
inductive OAError : Type
  | unknownPath
  | outOfBounds
  | badIndex
  | schemaError
  | backendError
  deriving DecidableEq, Repr

/-- Modelled from the spec: a schema node (section 3), the tagged type
descriptor of one field or subtree.  `prim` names the physical content array
holding the values, `list` names the starts/stops offset-array pair
delimiting variable-length sublists of the item subtree, `record` maps field
names to child schemas.  The `Union` and `Pointer` variants of the spec are
exercised by no claim, no notebook call and no spec law, and are omitted. -/
inductive Schema : Type
  | prim (arrId : String)
  | list (startsId stopsId : String) (item : Schema)
  | record (fields : List (String × Schema))

/-- Modelled from the spec: the Array Store (section 4.2), mapping array
names to physical flat arrays: `data` holds fixed-width value arrays, `idx`
holds the offset (starts/stops) arrays of variable-length lists. -/
structure Store (R : Type) : Type where
  data : List (String × List R)
  idx : List (String × List Nat)

/-- Modelled from the spec: `read(arrayId, index)` of the Array Store, the
random-access primitive read; fails with `OutOfBoundsError` when the index is
at or beyond the array length. -/
def Store.readData {R : Type} (st : Store R) (id : String) (i : Nat) :
    Except OAError R :=
  match st.data.lookup id with
  | none => .error .backendError
  | some xs =>
      if h : i < xs.length then .ok (xs.get ⟨i, h⟩) else .error .outOfBounds

/-- Modelled from the spec: the offset-array read of the Array Store, used to
resolve starts/stops entries of variable-length lists. -/
def Store.readIdx {R : Type} (st : Store R) (id : String) (i : Nat) :
    Except OAError Nat :=
  match st.idx.lookup id with
  | none => .error .backendError
  | some xs =>
      if h : i < xs.length then .ok (xs.get ⟨i, h⟩) else .error .outOfBounds

/-- Modelled from the spec: `resolve(path)` of the Schema Registry (section
4.1), descending through `record` nodes field by field; fails with
`UnknownPathError` when a field is absent and with `SchemaError` when the
path descends into a non-record node.  It reads no array data. -/
def Schema.resolve : List String → Schema → Except OAError Schema
  | [], s => .ok s
  | f :: rest, .record fields =>
      match fields.lookup f with
      | some c => Schema.resolve rest c
      | none => .error .unknownPath
  | _ :: _, _ => .error .schemaError

/-- Helper for `withField`: set field `f` of a record's field list to `S`,
replacing it in place when present and appending it when absent, sharing
every untouched entry. -/
def replaceOrAdd (fields : List (String × Schema)) (f : String) (S : Schema) :
    List (String × Schema) :=
  match fields with
  | [] => [(f, S)]
  | (g, c) :: rest =>
      if g == f then (f, S) :: rest else (g, c) :: replaceOrAdd rest f S

/-- Modelled from the spec: `withField(path, newSchema)` of the Schema
Registry (section 4.1), returning a new record node which holds `newSchema`
at `path` and shares all untouched children with the original. -/
def Schema.withField : List String → Schema → Schema → Except OAError Schema
  | [], new, _ => .ok new
  | f :: rest, new, .record fields =>
      match fields.lookup f with
      | some c => do
          let c' ← Schema.withField rest new c
          .ok (.record (replaceOrAdd fields f c'))
      | none =>
          match rest with
          | [] => .ok (.record (replaceOrAdd fields f new))
          | _ :: _ => .error .unknownPath
  | _ :: _, _, _ => .error .schemaError

/-- Modelled from the spec: a proxy (section 3) is an ephemeral view, a
schema node paired with a global index into the flat arrays. -/
structure Proxy : Type where
  schema : Schema
  gindex : Nat

/-- Result of materializing: a primitive schema resolves immediately to the
stored value, any other schema yields a lazy proxy handle. -/
inductive PV (R : Type) : Type
  | val (x : R)
  | px (p : Proxy)

/-- Modelled from the spec: `makeProxy(schema, store, index)` of the Proxy
Materializer (section 4.3).  For a `Primitive` schema it resolves to
`store.read` immediately (a value, no proxy object); for every other schema
it returns the lazy handle, copying no array data. -/
def makeProxyPV {R : Type} (s : Schema) (st : Store R) (g : Nat) :
    Except OAError (PV R) :=
  match s with
  | .prim id => do
      let v ← st.readData id g
      .ok (.val v)
  | s => .ok (.px ⟨s, g⟩)

/-- Extract the proxy handle from a materialization result; a bare value in
proxy position is a kind mismatch, `SchemaError`. -/
def PV.asProxy {R : Type} : PV R → Except OAError Proxy
  | .px p => .ok p
  | .val _ => .error .schemaError

/-- Extract the primitive value from a materialization result; a proxy in
value position is a kind mismatch, `SchemaError`. -/
def PV.asVal {R : Type} : PV R → Except OAError R
  | .val x => .ok x
  | .px _ => .error .schemaError

/-- Modelled from the spec: attribute access `proxy.field` of the Proxy
Materializer, resolving the field in the record's field table and recursing
into `makeProxy` at the same global index; `UnknownPathError` when the field
is absent, `SchemaError` on a non-record proxy. -/
def Proxy.attr {R : Type} (st : Store R) (p : Proxy) (f : String) :
    Except OAError (PV R) :=
  match p.schema with
  | .record fields =>
      match fields.lookup f with
      | some c => makeProxyPV c st p.gindex
      | none => .error .unknownPath
  | _ => .error .schemaError

/-- Modelled from the spec: the length query `len(proxy)` of a list proxy,
`stops[index] - starts[index]`. -/
def Proxy.plen {R : Type} (st : Store R) (p : Proxy) : Except OAError Nat :=
  match p.schema with
  | .list sId tId _ => do
      let a ← st.readIdx sId p.gindex
      let b ← st.readIdx tId p.gindex
      .ok (b - a)
  | _ => .error .schemaError

/-- Modelled from the spec: list indexing `proxy[i]` of the Proxy
Materializer (section 4.3), computing `derivedIndex = starts[index] + i`,
rejecting a negative logical index with the distinct `badIndex` error and an
index at or beyond `stops[index] - starts[index]` with the out-of-range
error. -/
def Proxy.item {R : Type} (st : Store R) (p : Proxy) (i : Int) :
    Except OAError (PV R) :=
  match p.schema with
  | .list sId tId item => do
      let a ← st.readIdx sId p.gindex
      let b ← st.readIdx tId p.gindex
      if i < 0 then .error .badIndex
      else if i.toNat < b - a then makeProxyPV item st (a + i.toNat)
      else .error .outOfBounds
  | _ => .error .schemaError

/-- Modelled from the spec: an entry-point dataset (section 3), the item
schema of the top-level entries, the selection of global indices those
entries occupy, and the backing Array Store. -/
structure Dataset (R : Type) : Type where
  item : Schema
  sel : List Nat
  store : Store R

/-- Effectful map over a list in the `Except` monad, collecting the outputs
or stopping at the first error; the evaluation driver of `define` and of the
projection readback. -/
def mapME {β γ : Type} (f : β → Except OAError γ) :
    List β → Except OAError (List γ)
  | [] => .ok []
  | a :: as => do
      let b ← f a
      let bs ← mapME f as
      .ok (b :: bs)

/-- Modelled from the spec: the evaluation domain of a target node, the
number of global indices its flat arrays hold: for a primitive node the
content-array length, for a list node the starts-array length, for a record
node the domain of its first field. -/
def Schema.domainSize {R : Type} (st : Store R) : Schema → Except OAError Nat
  | .prim id =>
      match st.data.lookup id with
      | some xs => .ok xs.length
      | none => .error .backendError
  | .list sId _ _ =>
      match st.idx.lookup sId with
      | some xs => .ok xs.length
      | none => .error .backendError
  | .record [] => .error .schemaError
  | .record ((_, c) :: _) => Schema.domainSize st c

/-- Modelled from the spec: `define(name, fn, at=path)` of the Transform
Engine (section 4.4).  The path is resolved first (schema validation strictly
precedes array computation); the target record — either the resolved record
itself or the item record of the resolved list — is extended with
`name -> Primitive`, `fn` is evaluated eagerly over proxies at every index of
the target's domain, and the outputs are materialized as one brand-new array
published under `name`, every other array handle being shared unchanged. -/
def Dataset.define {R : Type} (D : Dataset R) (name : String)
    (p : List String) (fn : Store R → Proxy → Except OAError R) :
    Except OAError (Dataset R) := do
  let target ← Schema.resolve p D.item
  match target with
  | .record r => do
      let N ← Schema.domainSize D.store (.record r)
      let vals ← mapME (fun g => fn D.store ⟨.record r, g⟩) (List.range N)
      let schema' ← Schema.withField p
        (Schema.record (replaceOrAdd r name (.prim name))) D.item
      .ok ⟨schema', D.sel, ⟨(name, vals) :: D.store.data, D.store.idx⟩⟩
  | .list sId tId (.record r) => do
      let N ← Schema.domainSize D.store (.record r)
      let vals ← mapME (fun g => fn D.store ⟨.record r, g⟩) (List.range N)
      let schema' ← Schema.withField p
        (Schema.list sId tId (.record (replaceOrAdd r name (.prim name))))
        D.item
      .ok ⟨schema', D.sel, ⟨(name, vals) :: D.store.data, D.store.idx⟩⟩
  | _ => .error .schemaError

/-- Selection restriction driving `filter`: keep, in order, the global
indices whose predicate evaluates to `true`, propagating a predicate
error. -/
def filterSel (f : Nat → Except OAError Bool) :
    List Nat → Except OAError (List Nat)
  | [] => .ok []
  | g :: gs => do
      let b ← f g
      let rest ← filterSel f gs
      .ok (if b then g :: rest else rest)

/-- Modelled from the spec: `filter(predicate)` of the Transform Engine
(section 4.4), evaluating the predicate per top-level entry and substituting
a new selection restricted to the entries where it is true, preserving
relative order and sharing every array handle (no physical copy). -/
def Dataset.filter {R : Type} (D : Dataset R)
    (pred : Store R → Proxy → Except OAError Bool) :
    Except OAError (Dataset R) := do
  let sel' ← filterSel (fun g => pred D.store ⟨D.item, g⟩) D.sel
  .ok ⟨D.item, sel', D.store⟩

/-- Modelled from the spec: `project(field)` of the Transform Engine,
navigating one level of the schema tree without materializing proxies;
`UnknownPathError` when the field is absent, `SchemaError` on a non-record
top level. -/
def Dataset.project {R : Type} (D : Dataset R) (f : String) :
    Except OAError (Dataset R) :=
  match D.item with
  | .record fields =>
      match fields.lookup f with
      | some c => .ok ⟨c, D.sel, D.store⟩
      | none => .error .unknownPath
  | _ => .error .schemaError

/-- Flattened selection: the concatenation, entry by entry, of every
sublist's global index range `starts[g] .. stops[g] - 1`. -/
def flatSel {R : Type} (st : Store R) (sId tId : String) :
    List Nat → Except OAError (List Nat)
  | [] => .ok []
  | g :: gs => do
      let a ← st.readIdx sId g
      let b ← st.readIdx tId g
      let rest ← flatSel st sId tId gs
      .ok (List.range' a (b - a) ++ rest)

/-- Modelled from the spec: `flatten()` of the Transform Engine (section
4.4), requiring the current schema to be a list — checked before any array
is touched, `SchemaError` otherwise — and discarding the outer index,
exposing the item schema as the new top level. -/
def Dataset.flatten {R : Type} (D : Dataset R) : Except OAError (Dataset R) :=
  match D.item with
  | .list sId tId item => do
      let sel' ← flatSel D.store sId tId D.sel
      .ok ⟨item, sel', D.store⟩
  | _ => .error .schemaError

/-- Readback of a primitive-topped dataset: the values of its entries, in
selection order; `SchemaError` when the top level is not primitive. -/
def Dataset.values {R : Type} (D : Dataset R) : Except OAError (List R) :=
  match D.item with
  | .prim id => mapME (fun g => D.store.readData id g) D.sel
  | _ => .error .schemaError

/-- Modelled from the spec: `map(fn)` of the Transform Engine, applying `fn`
to every top-level proxy and returning the finite sequence of its outputs,
not a new dataset. -/
def Dataset.mapSeq {R β : Type} (D : Dataset R)
    (fn : Store R → Proxy → Except OAError β) : Except OAError (List β) :=
  mapME (fun g => fn D.store ⟨D.item, g⟩) D.sel

/-- The transcendental operations the notebook takes from `math`/`numpy`
(`sqrt`, `cosh`, `cos`), abstracted as opaque functions so that every
equivalence below is an equivalence of the exact expression written in the
source, valid for any numeric interpretation of these operations. -/
structure MathOps (R : Type) : Type where
  sqrt : R → R
  cosh : R → R
  cos : R → R

/-- The invariant-mass expression the notebook writes in every variant:
`sqrt(2*pt1*pt2*(cosh(eta1 - eta2) - cos(phi1 - phi2)))`. -/
def invMass {R : Type} [CommRing R] (ops : MathOps R)
    (pt1 pt2 eta1 eta2 phi1 phi2 : R) : R :=
  ops.sqrt (2 * pt1 * pt2 * (ops.cosh (eta1 - eta2) - ops.cos (phi1 - phi2)))

/-- From the source (`stops - starts >= 2`): the boolean mask of events
holding at least two muons, computed elementwise over the starts/stops
arrays. -/
def has2muons (starts stops : List Int) : List Bool :=
  List.zipWith (fun a b => decide (2 ≤ b - a)) starts stops

/-- Boolean-mask selection `xs[mask]` of numpy: keep, in order, the elements
of `xs` whose mask entry is `true`. -/
def maskSelect {β : Type} : List β → List Bool → List β
  | [], _ => []
  | _, [] => []
  | x :: xs, m :: ms => if m then x :: maskSelect xs ms else maskSelect xs ms

/-- From the source (`starts[has2muons]`): the global index of the first
muon of each event that has two. -/
def firsts (starts stops : List Int) : List Int :=
  maskSelect starts (has2muons starts stops)

/-- From the source (`starts[has2muons] + 1`): the global index of the
second muon of each event that has two. -/
def seconds (starts stops : List Int) : List Int :=
  (firsts starts stops).map (· + 1)

/-- Single integer-array read of numpy fancy indexing: a nonnegative index
reads directly, a negative index wraps from the end, anything outside
`[-len, len)` is an index error. -/
def npRead {R : Type} (xs : List R) (i : Int) : Except OAError R :=
  if h1 : 0 ≤ i then
    if h2 : i.toNat < xs.length then .ok (xs.get ⟨i.toNat, h2⟩)
    else .error .outOfBounds
  else
    if h2 : (-i).toNat ≤ xs.length then
      .ok (xs.get ⟨xs.length - (-i).toNat, by omega⟩)
    else .error .outOfBounds

/-- Integer-array indexing `xs[indices]` of numpy: gather the element at
every index, failing on the first out-of-range index. -/
def npGather {R : Type} (xs : List R) (is : List Int) :
    Except OAError (List R) :=
  mapME (npRead xs) is

/-- Elementwise invariant mass over six parallel arrays, the value of the
vectorized expression `numpy.sqrt(2*pt1*pt2*(numpy.cosh(eta1 - eta2) -
numpy.cos(phi1 - phi2)))`, truncated at the shortest array like numpy
broadcasting over equal-length inputs. -/
def massArr {R : Type} [CommRing R] (ops : MathOps R) :
    List R → List R → List R → List R → List R → List R → List R
  | a :: as, b :: bs, c :: cs, d :: ds, e :: es, f :: fs =>
      invMass ops a b c d e f :: massArr ops as bs cs ds es fs
  | _, _, _, _, _, _ => []

/-- From the source: `mass_equivalent_numpy(starts, stops, pt, eta, phi,
out)`, the flat-array index-arithmetic computation — mask the events with
two muons, gather first and second muon kinematics by fancy indexing, and
evaluate the vectorized mass expression; the returned list is the array the
source assigns into `out[:]`. -/
def mass_equivalent_numpy {R : Type} [CommRing R] (ops : MathOps R)
    (starts stops : List Int) (pt eta phi : List R) :
    Except OAError (List R) := do
  let pt1 ← npGather pt (firsts starts stops)
  let pt2 ← npGather pt (seconds starts stops)
  let eta1 ← npGather eta (firsts starts stops)
  let eta2 ← npGather eta (seconds starts stops)
  let phi1 ← npGather phi (firsts starts stops)
  let phi2 ← npGather phi (seconds starts stops)
  .ok (massArr ops pt1 pt2 eta1 eta2 phi1 phi2)

/-- From the source: `mass_numpy(pt1, pt2, eta1, eta2, phi1, phi2, out)`,
the vectorized variant; `out[:] = ...` requires the computed array to have
the shape of `out` and then replaces its contents wholesale. -/
def mass_numpy {R : Type} [CommRing R] (ops : MathOps R)
    (pt1 pt2 eta1 eta2 phi1 phi2 out : List R) : Except OAError (List R) :=
  let res := massArr ops pt1 pt2 eta1 eta2 phi1 phi2
  if res.length = out.length then .ok res else .error .outOfBounds

/-- Loop body of `mass_python`: for each `i` of `range(len(pt1))` in order,
read the six inputs at `i` and write the mass into `out[i]`, failing on any
out-of-range access. -/
def pyLoop {R : Type} [CommRing R] (ops : MathOps R)
    (pt1 pt2 eta1 eta2 phi1 phi2 : List R) :
    List Nat → List R → Except OAError (List R)
  | [], out => .ok out
  | i :: is, out => do
      let a ← npRead pt1 (Int.ofNat i)
      let b ← npRead pt2 (Int.ofNat i)
      let c ← npRead eta1 (Int.ofNat i)
      let d ← npRead eta2 (Int.ofNat i)
      let e ← npRead phi1 (Int.ofNat i)
      let f ← npRead phi2 (Int.ofNat i)
      if i < out.length then
        pyLoop ops pt1 pt2 eta1 eta2 phi1 phi2 is
          (out.set i (invMass ops a b c d e f))
      else .error .outOfBounds

/-- From the source: `mass_python(pt1, pt2, eta1, eta2, phi1, phi2, out)`,
the element-wise loop `for i in range(len(pt1)): out[i] = sqrt(...)`,
returning the final contents of `out`. -/
def mass_python {R : Type} [CommRing R] (ops : MathOps R)
    (pt1 pt2 eta1 eta2 phi1 phi2 out : List R) : Except OAError (List R) :=
  pyLoop ops pt1 pt2 eta1 eta2 phi1 phi2 (List.range pt1.length) out

/-- From the source: the body of `mass_oamap`'s loop for one `event` proxy —
`if len(event.Muon) >= 2:` compute the mass of `event.Muon[0]` and
`event.Muon[1]` through proxy attribute access, list indexing and length
queries only; `none` when the event is skipped. -/
def massBody {R : Type} [CommRing R] (ops : MathOps R) (st : Store R)
    (ev : Proxy) : Except OAError (Option R) := do
  let muons ← (← ev.attr st "Muon").asProxy
  let n ← muons.plen st
  if 2 ≤ n then
    let mu1 ← (← muons.item st 0).asProxy
    let mu2 ← (← muons.item st 1).asProxy
    let pt1 ← (← mu1.attr st "pt").asVal
    let pt2 ← (← mu2.attr st "pt").asVal
    let eta1 ← (← mu1.attr st "eta").asVal
    let eta2 ← (← mu2.attr st "eta").asVal
    let phi1 ← (← mu1.attr st "phi").asVal
    let phi2 ← (← mu2.attr st "phi").asVal
    .ok (some (invMass ops pt1 pt2 eta1 eta2 phi1 phi2))
  else .ok none

/-- Sequential loop of `mass_oamap` over the event proxies: the list of
masses written to `out[0], out[1], ...` in order, one per selected event. -/
def massLoop {R : Type} [CommRing R] (ops : MathOps R) (st : Store R)
    (item : Schema) : List Nat → Except OAError (List R)
  | [] => .ok []
  | g :: gs => do
      let r ← massBody ops st ⟨item, g⟩
      let rest ← massLoop ops st item gs
      .ok (match r with | some m => m :: rest | none => rest)

/-- From the source: `mass_oamap(events, out)`, the loop-with-proxies
invariant-mass computation run over every entry of the dataset; the returned
list is the sequence of values the source writes into `out`. -/
def mass_oamap {R : Type} [CommRing R] (ops : MathOps R) (D : Dataset R) :
    Except OAError (List R) :=
  massLoop ops D.store D.item D.sel

/-- Success test for an `Except` computation, used to state totality
hypotheses decidably. -/
def isOkE {β : Type} : Except OAError β → Bool
  | .ok _ => true
  | .error _ => false

/-- Truth test for an `Except Bool` predicate evaluation: `true` exactly on
a successful evaluation to `true`. -/
def isOkTrue : Except OAError Bool → Bool
  | .ok true => true
  | _ => false

/-- The claim that two stores agree on every read the first one answers:
every successful data read and every successful offset read of the old store
returns the same value through the new one. -/
def StoreExtends {R : Type} (snew sold : Store R) : Prop :=
  (∀ id i v, sold.readData id i = .ok v → snew.readData id i = .ok v) ∧
  (∀ id i k, sold.readIdx id i = .ok k → snew.readIdx id i = .ok k)

/-- The muon record schema of the end-to-end scenario: one primitive field
`pt` backed by the content array `Muon-pt`. -/
def muonRecS : Schema := .record [("pt", .prim "Muon-pt")]

/-- The event schema of the end-to-end scenario: one field `Muon`, a
variable-length list of muon records delimited by `Muon-starts`/
`Muon-stops`. -/
def eventRecS : Schema :=
  .record [("Muon", .list "Muon-starts" "Muon-stops" muonRecS)]

/-- The backing store of the end-to-end scenario: `Muon.pt` is the ragged
array `[[1.0, 2.0], [], [3.0]]`, stored flat as content `[1, 2, 3]` with
starts `[0, 2, 2]` and stops `[2, 2, 3]`. -/
def scenarioStore : Store Int :=
  ⟨[("Muon-pt", [1, 2, 3])], [("Muon-starts", [0, 2, 2]), ("Muon-stops", [2, 2, 3])]⟩

/-- The 3-entry dataset of the end-to-end scenario. -/
def scenarioD : Dataset Int := ⟨eventRecS, [0, 1, 2], scenarioStore⟩

/-- The scenario's filter predicate, `lambda e: len(e.Muon) >= 1`, written
through proxy attribute access and the length query. -/
def lenAtLeast1 : Store Int → Proxy → Except OAError Bool := fun st e => do
  let muons ← (← e.attr st "Muon").asProxy
  let n ← muons.plen st
  .ok (1 ≤ n)

/-- The scenario's derivation function, `lambda m: m.pt*2`, written through
proxy attribute access. -/
def ptTimes2 : Store Int → Proxy → Except OAError Int := fun st m => do
  let x ← (← m.attr st "pt").asVal
  .ok (x * 2)

/-- The muon-kinematics store of the invariant-mass dataset: content arrays
`pt`, `eta`, `phi` and the offset arrays `starts`, `stops` delimiting the
muons of each event. -/
def massStore {R : Type} (pt eta phi : List R) (startsN stopsN : List Nat) :
    Store R :=
  ⟨[("pt", pt), ("eta", eta), ("phi", phi)],
   [("starts", startsN), ("stops", stopsN)]⟩

/-- The event schema of the invariant-mass dataset: a `Muon` list of records
with fields `pt`, `eta`, `phi`. -/
def eventsSchema : Schema :=
  .record [("Muon", .list "starts" "stops"
    (.record [("pt", .prim "pt"), ("eta", .prim "eta"), ("phi", .prim "phi")]))]

/-- Reference value of both invariant-mass computations: for each event with
at least two muons, in order, the mass built from the first two muons'
kinematics at content indices `starts[i]` and `starts[i] + 1`. -/
def refMasses {R : Type} [CommRing R] (ops : MathOps R)
    (pt eta phi : List R) (startsN stopsN : List Nat) : List R :=
  ((startsN.zip stopsN).filter (fun q => decide (2 ≤ q.2 - q.1))).map
    (fun q => invMass ops (pt.getD q.1 0) (pt.getD (q.1 + 1) 0)
      (eta.getD q.1 0) (eta.getD (q.1 + 1) 0)
      (phi.getD q.1 0) (phi.getD (q.1 + 1) 0))

/-- Concrete integer interpretation of the transcendental operations, used
only to instantiate the generic equivalence theorems on computable data. -/
def intOps : MathOps Int := ⟨fun x => x + 1000, fun x => 3 * x, fun x => x * x⟩

/-- Concrete derivation `lambda e: len(e.Muon)` used to exercise root-level
`define` on the scenario dataset. -/
def muonCountI : Store Int → Proxy → Except OAError Int := fun st e => do
  let muons ← (← e.attr st "Muon").asProxy
  let n ← muons.plen st
  .ok (n : Int)

theorem exBind_ok {β γ : Type} (a : β) (f : β → Except OAError γ) :
    (Except.ok a >>= f) = f a := rfl

theorem exBind_err {β γ : Type} (e : OAError) (f : β → Except OAError γ) :
    ((Except.error e : Except OAError β) >>= f) = .error e := rfl

theorem mapME_ok_length {β γ : Type} {f : β → Except OAError γ}
    {l : List β} {l' : List γ} (h : mapME f l = .ok l') :
    l'.length = l.length := by
  induction l generalizing l' with
  | nil =>
    simp only [mapME] at h
    cases h
    rfl
  | cons a as ih =>
    simp only [mapME] at h
    cases hfa : f a with
    | error e => rw [hfa, exBind_err] at h; cases h
    | ok b =>
      rw [hfa, exBind_ok] at h
      cases hrest : mapME f as with
      | error e => rw [hrest, exBind_err] at h; cases h
      | ok bs =>
        rw [hrest, exBind_ok] at h
        cases h
        simp [ih hrest]

theorem mapME_ok_getD {β γ : Type} {f : β → Except OAError γ}
    {l : List β} {l' : List γ} (h : mapME f l = .ok l')
    (dβ : β) (dγ : γ) :
    ∀ i, i < l.length → f (l.getD i dβ) = .ok (l'.getD i dγ) := by
  induction l generalizing l' with
  | nil => intro i hi; simp at hi
  | cons a as ih =>
    simp only [mapME] at h
    cases hfa : f a with
    | error e => rw [hfa, exBind_err] at h; cases h
    | ok b =>
      rw [hfa, exBind_ok] at h
      cases hrest : mapME f as with
      | error e => rw [hrest, exBind_err] at h; cases h
      | ok bs =>
        rw [hrest, exBind_ok] at h
        cases h
        intro i hi
        cases i with
        | zero => simpa using hfa
        | succ j =>
          simp only [List.getD_cons_succ]
          exact ih hrest j (by simpa using hi)

theorem mapME_total {β γ : Type} {f : β → Except OAError γ} {l : List β}
    (h : ∀ a ∈ l, isOkE (f a) = true) :
    ∃ l', mapME f l = .ok l' := by
  induction l with
  | nil => exact ⟨[], rfl⟩
  | cons a as ih =>
    have ha := h a (by simp)
    cases hfa : f a with
    | error e => rw [hfa] at ha; simp [isOkE] at ha
    | ok b =>
      obtain ⟨rest, hrest⟩ := ih (fun x hx => h x (by simp [hx]))
      exact ⟨b :: rest, by simp only [mapME, hfa, exBind_ok, hrest]⟩

theorem mapME_congr {β γ : Type} {f g : β → Except OAError γ} {l : List β}
    (h : ∀ a ∈ l, f a = g a) : mapME f l = mapME g l := by
  induction l with
  | nil => rfl
  | cons a as ih =>
    simp only [mapME, h a (by simp), ih (fun x hx => h x (by simp [hx]))]

theorem lookup_replaceOrAdd_self (fields : List (String × Schema))
    (f : String) (S : Schema) :
    (replaceOrAdd fields f S).lookup f = some S := by
  induction fields with
  | nil => simp [replaceOrAdd, List.lookup]
  | cons gc rest ih =>
    obtain ⟨g, c⟩ := gc
    by_cases hgf : g == f
    · simp [replaceOrAdd, hgf, List.lookup]
    · simp only [replaceOrAdd, hgf, Bool.false_eq_true, if_false, List.lookup]
      have hgf' : ¬g = f := by simpa [beq_iff_eq] using hgf
      have hfg : (f == g) = false :=
        beq_eq_false_iff_ne.mpr (fun he => hgf' he.symm)
      simp [hfg, ih]

theorem lookup_replaceOrAdd_other (fields : List (String × Schema))
    (f g : String) (S : Schema) (hgf : g ≠ f) :
    (replaceOrAdd fields f S).lookup g = fields.lookup g := by
  induction fields with
  | nil =>
    have h1 : (g == f) = false := beq_eq_false_iff_ne.mpr hgf
    simp [replaceOrAdd, List.lookup, h1]
  | cons kc rest ih =>
    obtain ⟨k, c⟩ := kc
    by_cases hkf : k == f
    · have hk : k = f := by simpa [beq_iff_eq] using hkf
      subst hk
      simp only [replaceOrAdd, beq_self_eq_true, if_true, List.lookup]
      have h1 : (g == k) = false := by simp [beq_iff_eq]; exact hgf
      simp [h1]
    · simp only [replaceOrAdd, hkf, Bool.false_eq_true, if_false, List.lookup]
      cases hgk : g == k with
      | true => rfl
      | false => exact ih

theorem maskSelect_map {β γ : Type} (fn : β → γ) :
    ∀ (xs : List β) (m : List Bool),
      maskSelect (xs.map fn) m = (maskSelect xs m).map fn := by
  intro xs
  induction xs with
  | nil => intro m; cases m <;> rfl
  | cons x xs ih =>
    intro m
    cases m with
    | nil => rfl
    | cons b bs =>
      cases b <;> simp [maskSelect, ih]

theorem maskSelect_zipWith {β γ : Type} (p : β → γ → Bool) :
    ∀ (xs : List β) (ys : List γ),
      maskSelect xs (List.zipWith p xs ys) =
        ((xs.zip ys).filter (fun q => p q.1 q.2)).map Prod.fst := by
  intro xs
  induction xs with
  | nil => intro ys; rfl
  | cons x xs ih =>
    intro ys
    cases ys with
    | nil => rfl
    | cons y ys =>
      by_cases hp : p x y
      · simp [maskSelect, List.zip_cons_cons, List.filter_cons, hp, ih]
      · simp only [List.zipWith_cons_cons, maskSelect, hp, Bool.false_eq_true,
          if_false, List.zip_cons_cons, List.filter_cons]
        simp [hp, ih]

theorem mem_zip_idx {β γ : Type} :
    ∀ {xs : List β} {ys : List γ} {q : β × γ}, q ∈ xs.zip ys →
      ∀ (dβ : β) (dγ : γ), ∃ i, i < xs.length ∧ i < ys.length ∧
        xs.getD i dβ = q.1 ∧ ys.getD i dγ = q.2 := by
  intro xs
  induction xs with
  | nil => intro ys q hq; simp at hq
  | cons x xs ih =>
    intro ys q hq dβ dγ
    cases ys with
    | nil => simp at hq
    | cons y ys =>
      rw [List.zip_cons_cons, List.mem_cons] at hq
      cases hq with
      | inl he =>
        subst he
        exact ⟨0, by simp, by simp, rfl, rfl⟩
      | inr hm =>
        obtain ⟨i, h1, h2, h3, h4⟩ := ih hm dβ dγ
        exact ⟨i + 1, by simpa using h1, by simpa using h2, h3, h4⟩

theorem filterSel_ok {f : Nat → Except OAError Bool} :
    ∀ {l : List Nat}, (∀ g ∈ l, isOkE (f g) = true) →
      filterSel f l = .ok (l.filter (fun g => isOkTrue (f g))) := by
  intro l
  induction l with
  | nil => intro _; rfl
  | cons g gs ih =>
    intro h
    have hg := h g (by simp)
    cases hfg : f g with
    | error e => rw [hfg] at hg; simp [isOkE] at hg
    | ok b =>
      have hrest := ih (fun x hx => h x (by simp [hx]))
      simp only [filterSel, hfg, exBind_ok, hrest, exBind_ok, List.filter_cons]
      cases b <;> simp [isOkTrue, hfg]

theorem withField_cons_ok {q : String} {qs : List String} {S c c' : Schema}
    (h : Schema.withField (q :: qs) S c = .ok c') :
    ∃ flds, c = Schema.record flds := by
  cases c with
  | prim id => simp [Schema.withField] at h
  | list a b it => simp [Schema.withField] at h
  | record flds => exact ⟨flds, rfl⟩

/-- C2: on the 3-entry dataset whose ragged field `Muon.pt` is
`[[1.0, 2.0], [], [3.0]]`, `filter(lambda e: len(e.Muon) >= 1)` yields a
2-entry dataset whose flattened `Muon.pt` is `[1.0, 2.0, 3.0]`, and
`define("pt2", lambda m: m.pt*2, at="Muon")` followed by
`project("Muon").flatten().project("pt2")` yields `[2.0, 4.0, 6.0]`. -/
theorem end_to_end_scenario :
    (do
      let D' ← scenarioD.filter lenAtLeast1
      (.ok D'.sel.length : Except OAError Nat)) = .ok 2 ∧
    (do
      let D' ← scenarioD.filter lenAtLeast1
      let P1 ← D'.project "Muon"
      let P2 ← P1.flatten
      let P3 ← P2.project "pt"
      P3.values) = .ok [1, 2, 3] ∧
    (do
      let D2 ← scenarioD.define "pt2" ["Muon"] ptTimes2
      let P1 ← D2.project "Muon"
      let P2 ← P1.flatten
      let P3 ← P2.project "pt2"
      P3.values) = .ok [2, 4, 6] :=
  ⟨rfl, rfl, rfl⟩

/-- C3: `filter(predicate)` keeps exactly the top-level entries whose
predicate evaluates to true, in their original relative order, so the
filtered selection is the `List.filter` of the original selection and its
length is the count of entries satisfying the predicate. -/
theorem filter_keeps_true_entries {R : Type} (D : Dataset R)
    (pred : Store R → Proxy → Except OAError Bool)
    (htot : ∀ g ∈ D.sel, isOkE (pred D.store ⟨D.item, g⟩) = true) :
    D.filter pred =
      .ok ⟨D.item,
        D.sel.filter (fun g => isOkTrue (pred D.store ⟨D.item, g⟩)),
        D.store⟩ ∧
    (D.sel.filter (fun g => isOkTrue (pred D.store ⟨D.item, g⟩))).length =
      D.sel.countP (fun g => isOkTrue (pred D.store ⟨D.item, g⟩)) := by
  constructor
  · unfold Dataset.filter
    rw [filterSel_ok htot, exBind_ok]
  · exact (List.countP_eq_length_filter _ _).symm

/-- Witness for C3 on the end-to-end dataset: entries 0 and 2 hold at least
one muon, entry 1 holds none. -/
theorem filter_keeps_true_entries_witness :
    scenarioD.filter lenAtLeast1 =
      .ok ⟨scenarioD.item,
        scenarioD.sel.filter
          (fun g => isOkTrue (lenAtLeast1 scenarioD.store ⟨scenarioD.item, g⟩)),
        scenarioD.store⟩ ∧
    (scenarioD.sel.filter
        (fun g => isOkTrue (lenAtLeast1 scenarioD.store ⟨scenarioD.item, g⟩))).length =
      scenarioD.sel.countP
        (fun g => isOkTrue (lenAtLeast1 scenarioD.store ⟨scenarioD.item, g⟩)) :=
  filter_keeps_true_entries scenarioD lenAtLeast1 (by decide)

/-- C5: setting a schema `S` at path `p` with `withField` yields a record in
which `p` resolves to `S`, while every sibling path (same parent, different
final field) resolves to the very same child node as in the original
record. -/
theorem withField_resolve_structural_sharing
    (ps : List String) (f : String) (fields : List (String × Schema))
    (S s' : Schema)
    (h : Schema.withField (ps ++ [f]) S (.record fields) = .ok s') :
    Schema.resolve (ps ++ [f]) s' = .ok S ∧
    ∀ g, g ≠ f →
      Schema.resolve (ps ++ [g]) s' =
        Schema.resolve (ps ++ [g]) (.record fields) := by
  induction ps generalizing fields s' with
  | nil =>
    simp only [List.nil_append] at h ⊢
    have hs' : s' = .record (replaceOrAdd fields f S) := by
      cases hl : fields.lookup f with
      | some c =>
        simp only [Schema.withField, hl, exBind_ok] at h
        exact (Except.ok.injEq _ _).mp h.symm
      | none =>
        simp only [Schema.withField, hl] at h
        exact (Except.ok.injEq _ _).mp h.symm
    subst hs'
    constructor
    · simp [Schema.resolve, lookup_replaceOrAdd_self]
    · intro g hg
      rw [show ([g] : List String) = [] ++ [g] from rfl]
      simp only [List.nil_append, Schema.resolve,
        lookup_replaceOrAdd_other fields f g S hg]
  | cons a ps ih =>
    rw [List.cons_append] at h
    cases hla : fields.lookup a with
    | none =>
      simp only [Schema.withField, hla] at h
      cases hps : ps ++ [f] with
      | nil => simp at hps
      | cons r rs => rw [hps] at h; cases h
    | some c =>
      simp only [Schema.withField, hla] at h
      cases hc : Schema.withField (ps ++ [f]) S c with
      | error e => rw [hc, exBind_err] at h; cases h
      | ok c' =>
        rw [hc, exBind_ok] at h
        have hs' : s' = .record (replaceOrAdd fields a c') :=
          (Except.ok.injEq _ _).mp h.symm
        subst hs'
        have hex : ∃ flds2, c = Schema.record flds2 := by
          cases hps : ps ++ [f] with
          | nil => simp at hps
          | cons r rs => rw [hps] at hc; exact withField_cons_ok hc
        obtain ⟨flds2, rfl⟩ := hex
        obtain ⟨ih1, ih2⟩ := ih flds2 c' hc
        simp only [List.cons_append]
        constructor
        · simp only [Schema.resolve, lookup_replaceOrAdd_self]
          exact ih1
        · intro g hg
          simp only [Schema.resolve, lookup_replaceOrAdd_self, hla]
          exact ih2 g hg

/-- Witness for C5: adding field `b` to the record `{a}` leaves the sibling
path `a` resolving exactly as before. -/
theorem withField_resolve_structural_sharing_witness :
    Schema.resolve ["b"] (Schema.record [("a", .prim "x"), ("b", .prim "y")]) =
      .ok (.prim "y") ∧
    Schema.resolve ["a"] (Schema.record [("a", .prim "x"), ("b", .prim "y")]) =
      Schema.resolve ["a"] (Schema.record [("a", .prim "x")]) := by
  have h := withField_resolve_structural_sharing [] "b" [("a", .prim "x")]
    (.prim "y") (.record [("a", .prim "x"), ("b", .prim "y")]) rfl
  exact ⟨h.1, h.2 "a" (by decide)⟩

/-- C6: on a list proxy at global index `g` with `starts[g] = a` and
`stops[g] = b`, the logical index `i` resolves to the element at derived
index `a + i` whenever `0 <= i < b - a`, an `i` at or beyond the list's
length raises the out-of-range error, and a negative `i` is rejected with
the distinct `badIndex` error. -/
theorem list_proxy_indexing_bounds {R : Type} (st : Store R)
    (sId tId : String) (item : Schema) (g a b : Nat)
    (ha : st.readIdx sId g = .ok a) (hb : st.readIdx tId g = .ok b) :
    (∀ i : Int, 0 ≤ i → i.toNat < b - a →
      Proxy.item st ⟨.list sId tId item, g⟩ i =
        makeProxyPV item st (a + i.toNat)) ∧
    (∀ i : Int, 0 ≤ i → b - a ≤ i.toNat →
      Proxy.item st ⟨.list sId tId item, g⟩ i = .error .outOfBounds) ∧
    (∀ i : Int, i < 0 →
      Proxy.item st ⟨.list sId tId item, g⟩ i = .error .badIndex) ∧
    OAError.badIndex ≠ OAError.outOfBounds := by
  refine ⟨?_, ?_, ?_, by decide⟩
  · intro i h0 hlt
    simp only [Proxy.item, ha, exBind_ok, hb, exBind_ok]
    rw [if_neg (by omega), if_pos hlt]
  · intro i h0 hge
    simp only [Proxy.item, ha, exBind_ok, hb, exBind_ok]
    rw [if_neg (by omega), if_neg (by omega)]
  · intro i hneg
    simp only [Proxy.item, ha, exBind_ok, hb, exBind_ok]
    rw [if_pos hneg]

/-- Witness for C6 on the scenario store: entry 0's muon list has bounds
`starts[0] = 0`, `stops[0] = 2`; index 1 resolves through derived index
`0 + 1`, index 5 is out of range, index -1 is rejected distinctly. -/
theorem list_proxy_indexing_bounds_witness :
    Proxy.item scenarioStore ⟨.list "Muon-starts" "Muon-stops" muonRecS, 0⟩ 1 =
      makeProxyPV muonRecS scenarioStore (0 + (1 : Int).toNat) ∧
    Proxy.item scenarioStore ⟨.list "Muon-starts" "Muon-stops" muonRecS, 0⟩ 5 =
      .error .outOfBounds ∧
    Proxy.item scenarioStore
      ⟨.list "Muon-starts" "Muon-stops" muonRecS, 0⟩ (-1) =
      .error .badIndex := by
  have h := list_proxy_indexing_bounds scenarioStore "Muon-starts"
    "Muon-stops" muonRecS 0 0 2 rfl rfl
  exact ⟨h.1 1 (by decide) (by decide), h.2.1 5 (by decide) (by decide),
    h.2.2.1 (-1) (by decide)⟩

/-- C7: every transform referencing an unresolvable path or applied to an
incompatible node kind fails with `UnknownPathError`/`SchemaError` purely
from the schema — for any selection, any store contents and any user
function, so before any array data is read or computed — and the error
result carries no partially constructed dataset.  In particular `flatten()`
on a non-list schema raises `SchemaError`. -/
theorem transforms_fail_fast :
    (∀ (R : Type) (item : Schema) (sel : List Nat) (st : Store R),
      (∀ sId tId it, item ≠ .list sId tId it) →
      Dataset.flatten ⟨item, sel, st⟩ = .error .schemaError) ∧
    (∀ (R : Type) (item : Schema) (p : List String) (e : OAError),
      Schema.resolve p item = .error e →
      ∀ (sel : List Nat) (st : Store R) (name : String)
        (fn : Store R → Proxy → Except OAError R),
        Dataset.define ⟨item, sel, st⟩ name p fn = .error e) ∧
    (∀ (R : Type) (flds : List (String × Schema)) (f : String),
      flds.lookup f = none →
      ∀ (sel : List Nat) (st : Store R),
        Dataset.project ⟨.record flds, sel, st⟩ f = .error .unknownPath) := by
  refine ⟨?_, ?_, ?_⟩
  · intro R item sel st hnl
    cases item with
    | prim id => rfl
    | record flds => rfl
    | list sId tId it => exact absurd rfl (hnl sId tId it)
  · intro R item p e hres sel st name fn
    unfold Dataset.define
    rw [hres, exBind_err]
  · intro R flds f hlf sel st
    simp only [Dataset.project, hlf]

/-- Witness for C7: flattening the primitive-topped dataset fails with
`SchemaError`, a `define` at the absent path `Nope` fails with
`UnknownPathError`, and a projection of the absent field `Nope` fails with
`UnknownPathError`, whatever the store holds. -/
theorem transforms_fail_fast_witness :
    Dataset.flatten ⟨Schema.prim "Muon-pt", [0], scenarioStore⟩ =
      .error .schemaError ∧
    Dataset.define ⟨eventRecS, [0, 1, 2], scenarioStore⟩ "z" ["Nope"]
      ptTimes2 = .error .unknownPath ∧
    Dataset.project
      ⟨.record [("Muon", .list "Muon-starts" "Muon-stops" muonRecS)],
        [0, 1, 2], scenarioStore⟩ "Nope" = .error .unknownPath :=
  ⟨transforms_fail_fast.1 Int (Schema.prim "Muon-pt") [0] scenarioStore
      (by intro sId tId it hcon; cases hcon),
    transforms_fail_fast.2.1 Int eventRecS ["Nope"] .unknownPath rfl
      [0, 1, 2] scenarioStore "z" ptTimes2,
    transforms_fail_fast.2.2 Int
      [("Muon", .list "Muon-starts" "Muon-stops" muonRecS)] "Nope" rfl
      [0, 1, 2] scenarioStore⟩

theorem consStore_extends {R : Type} (sold : Store R) (name : String)
    (vals : List R) (hfresh : sold.data.lookup name = none) :
    StoreExtends ⟨(name, vals) :: sold.data, sold.idx⟩ sold := by
  constructor
  · intro id i v hv
    simp only [Store.readData] at hv ⊢
    cases hl : sold.data.lookup id with
    | none => rw [hl] at hv; cases hv
    | some xs =>
      rw [hl] at hv
      have hne : (id == name) = false := by
        refine beq_eq_false_iff_ne.mpr ?_
        intro he
        subst he
        rw [hl] at hfresh
        cases hfresh
      simp only [List.lookup, hne, hl]
      exact hv
  · intro id i k hk
    exact hk

theorem define_store_shape {R : Type} {D : Dataset R} {name : String}
    {p : List String} {fn : Store R → Proxy → Except OAError R}
    {D' : Dataset R} (h : D.define name p fn = .ok D') :
    ∃ vals, D'.store = ⟨(name, vals) :: D.store.data, D.store.idx⟩ := by
  unfold Dataset.define at h
  cases hres : Schema.resolve p D.item with
  | error e => rw [hres, exBind_err] at h; cases h
  | ok target =>
    rw [hres, exBind_ok] at h
    split at h
    case _ r =>
      cases hN : Schema.domainSize D.store (.record r) with
      | error e => rw [hN, exBind_err] at h; cases h
      | ok N =>
        rw [hN, exBind_ok] at h
        cases hv : mapME (fun g => fn D.store ⟨.record r, g⟩)
            (List.range N) with
        | error e => rw [hv, exBind_err] at h; cases h
        | ok vals =>
          rw [hv, exBind_ok] at h
          cases hw : Schema.withField p
              (Schema.record (replaceOrAdd r name (.prim name))) D.item with
          | error e => rw [hw, exBind_err] at h; cases h
          | ok s' =>
            rw [hw, exBind_ok] at h
            cases h
            exact ⟨vals, rfl⟩
    case _ sId tId r =>
      cases hN : Schema.domainSize D.store (.record r) with
      | error e => rw [hN, exBind_err] at h; cases h
      | ok N =>
        rw [hN, exBind_ok] at h
        cases hv : mapME (fun g => fn D.store ⟨.record r, g⟩)
            (List.range N) with
        | error e => rw [hv, exBind_err] at h; cases h
        | ok vals =>
          rw [hv, exBind_ok] at h
          cases hw : Schema.withField p
              (Schema.list sId tId
                (.record (replaceOrAdd r name (.prim name)))) D.item with
          | error e => rw [hw, exBind_err] at h; cases h
          | ok s' =>
            rw [hw, exBind_ok] at h
            cases h
            exact ⟨vals, rfl⟩
    case _ => cases h

/-- C8: no transform mutates the original dataset's schema or arrays —
`filter`, `project` and `flatten` return a dataset backed by the very same
store, and `define` (with a fresh array name) returns a store through which
every read the original store answered returns the same value, so every read
from the original dataset is unchanged by the transform. -/
theorem transforms_preserve_original_reads :
    (∀ (R : Type) (D : Dataset R) (name : String) (p : List String)
      (fn : Store R → Proxy → Except OAError R) (D' : Dataset R),
      D.store.data.lookup name = none →
      D.define name p fn = .ok D' → StoreExtends D'.store D.store) ∧
    (∀ (R : Type) (D : Dataset R)
      (pred : Store R → Proxy → Except OAError Bool) (D' : Dataset R),
      D.filter pred = .ok D' → D'.store = D.store) ∧
    (∀ (R : Type) (D : Dataset R) (f : String) (D' : Dataset R),
      D.project f = .ok D' → D'.store = D.store) ∧
    (∀ (R : Type) (D : Dataset R) (D' : Dataset R),
      D.flatten = .ok D' → D'.store = D.store) := by
  refine ⟨?_, ?_, ?_, ?_⟩
  · intro R D name p fn D' hfresh h
    obtain ⟨vals, hshape⟩ := define_store_shape h
    rw [hshape]
    exact consStore_extends D.store name vals hfresh
  · intro R D pred D' h
    unfold Dataset.filter at h
    cases hs : filterSel (fun g => pred D.store ⟨D.item, g⟩) D.sel with
    | error e => rw [hs, exBind_err] at h; cases h
    | ok sel' => rw [hs, exBind_ok] at h; cases h; rfl
  · intro R D f D' h
    unfold Dataset.project at h
    split at h
    case _ flds =>
      split at h
      case _ c hl => cases h; rfl
      case _ => cases h
    case _ => cases h
  · intro R D D' h
    unfold Dataset.flatten at h
    split at h
    case _ a b c =>
      rename_i sId
      cases hs : flatSel D.store sId a D.sel with
      | error e => rw [hs, exBind_err] at h; cases h
      | ok sel' => rw [hs, exBind_ok] at h; cases h; rfl
    case _ => cases h

/-- Witness for C8: deriving `pt2` on the scenario dataset leaves every read
of the original store intact, and filtering shares the store outright. -/
theorem transforms_preserve_original_reads_witness :
    StoreExtends
      ⟨("pt2", [2, 4, 6]) :: scenarioStore.data, scenarioStore.idx⟩
      scenarioStore ∧
    (Dataset.mk eventRecS [0, 2] scenarioStore).store = scenarioD.store := by
  constructor
  · have h := transforms_preserve_original_reads.1 Int scenarioD "pt2"
      ["Muon"] ptTimes2
      ⟨Schema.record [("Muon", .list "Muon-starts" "Muon-stops"
          (.record [("pt", .prim "Muon-pt"), ("pt2", .prim "pt2")]))],
        [0, 1, 2],
        ⟨("pt2", [2, 4, 6]) :: scenarioStore.data, scenarioStore.idx⟩⟩
      rfl rfl
    exact h
  · exact transforms_preserve_original_reads.2.1 Int scenarioD lenAtLeast1
      ⟨eventRecS, [0, 2], scenarioStore⟩ rfl

theorem mem_firsts {starts stops : List Int} {x : Int}
    (hx : x ∈ firsts starts stops) :
    ∃ i, i < starts.length ∧ i < stops.length ∧ starts.getD i 0 = x ∧
      2 ≤ stops.getD i 0 - starts.getD i 0 := by
  unfold firsts has2muons at hx
  rw [maskSelect_zipWith, List.mem_map] at hx
  obtain ⟨q, hq, hq1⟩ := hx
  rw [List.mem_filter] at hq
  obtain ⟨hqz, hqp⟩ := hq
  obtain ⟨i, h1, h2, h3, h4⟩ := mem_zip_idx hqz 0 0
  refine ⟨i, h1, h2, by rw [h3, hq1], ?_⟩
  rw [h3, h4]
  exact of_decide_eq_true hqp

/-- C9: when the starts/stops arrays delimit valid sublists of the content
arrays and the mask keeps only events with at least two muons, every index
in `firsts` and in `seconds` is nonnegative and strictly below the length of
each of the `pt`, `eta` and `phi` content arrays, so no gather can go out of
bounds. -/
theorem firsts_seconds_in_bounds {R : Type} (starts stops : List Int)
    (pt eta phi : List R)
    (hb : ∀ i, i < starts.length →
      0 ≤ starts.getD i 0 ∧ starts.getD i 0 ≤ stops.getD i 0 ∧
        stops.getD i 0 ≤ (pt.length : Int))
    (heta : eta.length = pt.length) (hphi : phi.length = pt.length) :
    (∀ x ∈ firsts starts stops,
      0 ≤ x ∧ x < (pt.length : Int) ∧ x < (eta.length : Int) ∧
        x < (phi.length : Int)) ∧
    (∀ x ∈ seconds starts stops,
      0 ≤ x ∧ x < (pt.length : Int) ∧ x < (eta.length : Int) ∧
        x < (phi.length : Int)) := by
  constructor
  · intro x hx
    obtain ⟨i, h1, h2, h3, h4⟩ := mem_firsts hx
    have hbi := hb i h1
    exact ⟨by omega, by omega, by omega, by omega⟩
  · intro x hx
    unfold seconds at hx
    rw [List.mem_map] at hx
    obtain ⟨y, hy, rfl⟩ := hx
    obtain ⟨i, h1, h2, h3, h4⟩ := mem_firsts hy
    have hbi := hb i h1
    exact ⟨by omega, by omega, by omega, by omega⟩

/-- Witness for C9 on the concrete selection `starts = [0, 2, 2]`,
`stops = [2, 2, 3]` over content arrays of length 3: the sole selected event
contributes first index 0 and second index 1, both in bounds. -/
theorem firsts_seconds_in_bounds_witness :
    (0 ≤ (0 : Int) ∧ (0 : Int) < ((3 : Nat) : Int) ∧
      (0 : Int) < ((3 : Nat) : Int) ∧ (0 : Int) < ((3 : Nat) : Int)) ∧
    (0 ≤ (0 : Int) + 1 ∧ (0 : Int) + 1 < ((3 : Nat) : Int) ∧
      (0 : Int) + 1 < ((3 : Nat) : Int) ∧ (0 : Int) + 1 < ((3 : Nat) : Int)) := by
  have h := firsts_seconds_in_bounds [0, 2, 2] [2, 2, 3]
    ([10, 20, 30] : List Int) [1, 2, 3] [5, 6, 7]
    (by decide) (by decide) (by decide)
  exact ⟨h.1 0 (by decide), h.2 ((0 : Int) + 1) (by decide)⟩

theorem massArr_length {R : Type} [CommRing R] (ops : MathOps R) :
    ∀ (l1 l2 l3 l4 l5 l6 : List R),
      l2.length = l1.length → l3.length = l1.length →
      l4.length = l1.length → l5.length = l1.length →
      l6.length = l1.length →
      (massArr ops l1 l2 l3 l4 l5 l6).length = l1.length := by
  intro l1
  induction l1 with
  | nil => intro l2 l3 l4 l5 l6 _ _ _ _ _; rfl
  | cons a as ih =>
    intro l2 l3 l4 l5 l6 h2 h3 h4 h5 h6
    cases l2 with | nil => simp at h2 | cons b bs => ?_
    cases l3 with | nil => simp at h3 | cons c cs => ?_
    cases l4 with | nil => simp at h4 | cons d ds => ?_
    cases l5 with | nil => simp at h5 | cons e es => ?_
    cases l6 with | nil => simp at h6 | cons f fs => ?_
    simp only [massArr, List.length_cons]
    rw [ih bs cs ds es fs (by simpa using h2) (by simpa using h3)
      (by simpa using h4) (by simpa using h5) (by simpa using h6)]

theorem massArr_getD {R : Type} [CommRing R] (ops : MathOps R) :
    ∀ (l1 l2 l3 l4 l5 l6 : List R),
      l2.length = l1.length → l3.length = l1.length →
      l4.length = l1.length → l5.length = l1.length →
      l6.length = l1.length →
      ∀ i, i < l1.length →
        (massArr ops l1 l2 l3 l4 l5 l6).getD i 0 =
          invMass ops (l1.getD i 0) (l2.getD i 0) (l3.getD i 0)
            (l4.getD i 0) (l5.getD i 0) (l6.getD i 0) := by
  intro l1
  induction l1 with
  | nil => intro l2 l3 l4 l5 l6 _ _ _ _ _ i hi; simp at hi
  | cons a as ih =>
    intro l2 l3 l4 l5 l6 h2 h3 h4 h5 h6 i hi
    cases l2 with | nil => simp at h2 | cons b bs => ?_
    cases l3 with | nil => simp at h3 | cons c cs => ?_
    cases l4 with | nil => simp at h4 | cons d ds => ?_
    cases l5 with | nil => simp at h5 | cons e es => ?_
    cases l6 with | nil => simp at h6 | cons f fs => ?_
    cases i with
    | zero => rfl
    | succ j =>
      simp only [massArr, List.getD_cons_succ]
      exact ih bs cs ds es fs (by simpa using h2) (by simpa using h3)
        (by simpa using h4) (by simpa using h5) (by simpa using h6) j
        (by simpa using hi)

theorem npRead_ofNat_ok {R : Type} (xs : List R) (d : R) (k : Nat)
    (hk : k < xs.length) :
    npRead xs (Int.ofNat k) = .ok (xs.getD k d) := by
  unfold npRead
  split
  · split
    · rw [List.getD_eq_getElem xs d hk]
      rfl
    · rename_i h2
      exact absurd (show (Int.ofNat k).toNat < xs.length by simpa using hk) h2
  · rename_i h1
    exact absurd (Int.ofNat_zero_le k) h1

theorem take_succ_set {β : Type} :
    ∀ (out : List β) (k : Nat) (v : β), k < out.length →
      (out.set k v).take (k + 1) = out.take k ++ [v]
  | x :: xs, 0, v, _ => by simp
  | x :: xs, k + 1, v, h => by
      simp only [List.set_cons_succ, List.take_succ_cons,
        List.cons_append]
      rw [take_succ_set xs k v (by simpa using h)]
  | [], k, v, h => by simp at h

theorem getD_drop_cons {β : Type} (l : List β) (d : β) (k : Nat)
    (hk : k < l.length) : l.drop k = l.getD k d :: l.drop (k + 1) := by
  rw [List.drop_eq_getElem_cons hk, List.getD_eq_getElem l d hk]

theorem pyLoop_ok {R : Type} [CommRing R] (ops : MathOps R)
    (pt1 pt2 eta1 eta2 phi1 phi2 : List R)
    (h2 : pt2.length = pt1.length) (h3 : eta1.length = pt1.length)
    (h4 : eta2.length = pt1.length) (h5 : phi1.length = pt1.length)
    (h6 : phi2.length = pt1.length) :
    ∀ (m k : Nat) (out : List R), out.length = pt1.length →
      k + m = pt1.length →
      pyLoop ops pt1 pt2 eta1 eta2 phi1 phi2 (List.range' k m) out =
        .ok (out.take k ++
          (massArr ops pt1 pt2 eta1 eta2 phi1 phi2).drop k) := by
  have hml := massArr_length ops pt1 pt2 eta1 eta2 phi1 phi2 h2 h3 h4 h5 h6
  intro m
  induction m with
  | zero =>
    intro k out hout hk
    simp only [List.range', pyLoop]
    have h1 : out.take k = out := by
      rw [← hout] at hk
      simp [List.take_of_length_le, (by omega : out.length ≤ k)]
    have hD : (massArr ops pt1 pt2 eta1 eta2 phi1 phi2).drop k = [] := by
      apply List.drop_eq_nil_of_le
      omega
    rw [h1, hD, List.append_nil]
  | succ m ih =>
    intro k out hout hk
    rw [List.range'_succ]
    have hkl : k < pt1.length := by omega
    simp only [pyLoop]
    rw [npRead_ofNat_ok pt1 0 k hkl, exBind_ok,
      npRead_ofNat_ok pt2 0 k (by omega), exBind_ok,
      npRead_ofNat_ok eta1 0 k (by omega), exBind_ok,
      npRead_ofNat_ok eta2 0 k (by omega), exBind_ok,
      npRead_ofNat_ok phi1 0 k (by omega), exBind_ok,
      npRead_ofNat_ok phi2 0 k (by omega), exBind_ok]
    rw [if_pos (by omega : k < out.length)]
    rw [ih (k + 1) _ (by simpa using hout) (by omega)]
    congr 1
    rw [take_succ_set out k _ (by omega),
      getD_drop_cons (massArr ops pt1 pt2 eta1 eta2 phi1 phi2) 0 k
        (by omega),
      massArr_getD ops pt1 pt2 eta1 eta2 phi1 phi2 h2 h3 h4 h5 h6 k hkl,
      List.append_assoc, List.singleton_append]

/-- C10: the element-wise loop `mass_python` and the vectorized `mass_numpy`
compute the same result — on equal-length inputs both succeed with the same
output array, whose every entry `i` is
`sqrt(2*pt1[i]*pt2[i]*(cosh(eta1[i]-eta2[i]) - cos(phi1[i]-phi2[i])))`. -/
theorem mass_python_eq_mass_numpy {R : Type} [CommRing R] (ops : MathOps R)
    (pt1 pt2 eta1 eta2 phi1 phi2 out : List R)
    (h2 : pt2.length = pt1.length) (h3 : eta1.length = pt1.length)
    (h4 : eta2.length = pt1.length) (h5 : phi1.length = pt1.length)
    (h6 : phi2.length = pt1.length) (hout : out.length = pt1.length) :
    mass_python ops pt1 pt2 eta1 eta2 phi1 phi2 out =
      .ok (massArr ops pt1 pt2 eta1 eta2 phi1 phi2) ∧
    mass_numpy ops pt1 pt2 eta1 eta2 phi1 phi2 out =
      .ok (massArr ops pt1 pt2 eta1 eta2 phi1 phi2) ∧
    ∀ i, i < pt1.length →
      (massArr ops pt1 pt2 eta1 eta2 phi1 phi2).getD i 0 =
        invMass ops (pt1.getD i 0) (pt2.getD i 0) (eta1.getD i 0)
          (eta2.getD i 0) (phi1.getD i 0) (phi2.getD i 0) := by
  refine ⟨?_, ?_,
    massArr_getD ops pt1 pt2 eta1 eta2 phi1 phi2 h2 h3 h4 h5 h6⟩
  · unfold mass_python
    rw [List.range_eq_range']
    rw [pyLoop_ok ops pt1 pt2 eta1 eta2 phi1 phi2 h2 h3 h4 h5 h6
      pt1.length 0 out hout (by omega)]
    simp
  · unfold mass_numpy
    rw [if_pos (by
      rw [massArr_length ops pt1 pt2 eta1 eta2 phi1 phi2 h2 h3 h4 h5 h6,
        hout])]

/-- Witness for C10 on concrete two-event integer data. -/
theorem mass_python_eq_mass_numpy_witness :
    mass_python intOps [1, 2] [3, 4] [5, 6] [7, 8] [9, 10] [11, 12] [0, 0] =
      .ok (massArr intOps [1, 2] [3, 4] [5, 6] [7, 8] [9, 10] [11, 12]) ∧
    mass_numpy intOps [1, 2] [3, 4] [5, 6] [7, 8] [9, 10] [11, 12] [0, 0] =
      .ok (massArr intOps [1, 2] [3, 4] [5, 6] [7, 8] [9, 10] [11, 12]) ∧
    ∀ i, i < ([1, 2] : List Int).length →
      (massArr intOps [1, 2] [3, 4] [5, 6] [7, 8] [9, 10] [11, 12]).getD i 0 =
        invMass intOps (([1, 2] : List Int).getD i 0)
          (([3, 4] : List Int).getD i 0) (([5, 6] : List Int).getD i 0)
          (([7, 8] : List Int).getD i 0) (([9, 10] : List Int).getD i 0)
          (([11, 12] : List Int).getD i 0) :=
  mass_python_eq_mass_numpy intOps [1, 2] [3, 4] [5, 6] [7, 8] [9, 10]
    [11, 12] [0, 0] rfl rfl rfl rfl rfl rfl

theorem mapME_ok_get {β γ : Type} {f : β → Except OAError γ} :
    ∀ {l : List β} {l' : List γ}, mapME f l = .ok l' →
      ∀ i (h : i < l.length) (h' : i < l'.length),
        f (l.get ⟨i, h⟩) = .ok (l'.get ⟨i, h'⟩) := by
  intro l
  induction l with
  | nil => intro l' hm i h h'; simp at h
  | cons a as ih =>
    intro l' hm i h h'
    simp only [mapME] at hm
    cases hfa : f a with
    | error e => rw [hfa, exBind_err] at hm; cases hm
    | ok b =>
      rw [hfa, exBind_ok] at hm
      cases hrest : mapME f as with
      | error e => rw [hrest, exBind_err] at hm; cases hm
      | ok bs =>
        rw [hrest, exBind_ok] at hm
        cases hm
        cases i with
        | zero => simpa using hfa
        | succ j =>
          exact ih hrest j (by simpa using h) (by simpa using h')

/-- C4: `define(name, fn)` at the top level followed by `project(name)`
reads back, at every index in selection order, exactly the value of `fn`
evaluated directly on that entry's proxy — the whole readback equals mapping
`fn` over the dataset's entries. -/
theorem define_project_roundtrip {R : Type} (D : Dataset R) (name : String)
    (fn : Store R → Proxy → Except OAError R) (r : List (String × Schema))
    (N : Nat) (hitem : D.item = .record r)
    (hN : Schema.domainSize D.store (.record r) = .ok N)
    (htot : ∀ g, g < N → isOkE (fn D.store ⟨.record r, g⟩) = true)
    (hsel : ∀ g ∈ D.sel, g < N) :
    (do
      let D' ← D.define name [] fn
      let P ← D'.project name
      P.values) = mapME (fun g => fn D.store ⟨D.item, g⟩) D.sel := by
  obtain ⟨item, sel, store⟩ := D
  dsimp only at hitem hN htot hsel ⊢
  subst hitem
  obtain ⟨vals, hvals⟩ := mapME_total (f := fun g => fn store ⟨.record r, g⟩)
    (l := List.range N) (fun a ha => htot a (List.mem_range.mp ha))
  have hlenv : vals.length = N := by
    have h := mapME_ok_length hvals
    simpa using h
  have hdef : Dataset.define ⟨.record r, sel, store⟩ name [] fn =
      .ok ⟨.record (replaceOrAdd r name (.prim name)), sel,
        ⟨(name, vals) :: store.data, store.idx⟩⟩ := by
    unfold Dataset.define
    simp only [Schema.resolve, Schema.withField, exBind_ok, hN, hvals]
  rw [hdef, exBind_ok]
  simp only [Dataset.project, lookup_replaceOrAdd_self, exBind_ok,
    Dataset.values]
  apply mapME_congr
  intro g hg
  have hgN := hsel g hg
  have hread : Store.readData
      ⟨(name, vals) :: store.data, store.idx⟩ name g =
      .ok (vals.get ⟨g, by omega⟩) := by
    unfold Store.readData
    simp only [List.lookup, beq_self_eq_true]
    rw [dif_pos (by omega)]
  rw [hread]
  have hfn := mapME_ok_get hvals g (by simpa using hgN) (by omega)
  rw [List.get_eq_getElem, List.getElem_range] at hfn
  exact hfn.symm

/-- Witness for C4: deriving the muon count at the top level of the scenario
dataset and projecting it back reproduces evaluating the function on each
entry proxy. -/
theorem define_project_roundtrip_witness :
    (do
      let D' ← scenarioD.define "nmu" [] muonCountI
      let P ← D'.project "nmu"
      P.values) =
      mapME (fun g => muonCountI scenarioD.store ⟨scenarioD.item, g⟩)
        scenarioD.sel :=
  define_project_roundtrip scenarioD "nmu" muonCountI
    [("Muon", .list "Muon-starts" "Muon-stops" muonRecS)] 3 rfl rfl
    (by decide) (by decide)

theorem massBody_eval {R : Type} [CommRing R] (ops : MathOps R)
    (pt eta phi : List R) (startsN stopsN : List Nat) (g : Nat)
    (hg : g < startsN.length) (hg' : g < stopsN.length)
    (hb1 : startsN.getD g 0 ≤ stopsN.getD g 0)
    (hb2 : stopsN.getD g 0 ≤ pt.length)
    (heta : eta.length = pt.length) (hphi : phi.length = pt.length) :
    massBody ops (massStore pt eta phi startsN stopsN) ⟨eventsSchema, g⟩ =
      .ok (if 2 ≤ stopsN.getD g 0 - startsN.getD g 0
        then some (invMass ops
          (pt.getD (startsN.getD g 0) 0) (pt.getD (startsN.getD g 0 + 1) 0)
          (eta.getD (startsN.getD g 0) 0) (eta.getD (startsN.getD g 0 + 1) 0)
          (phi.getD (startsN.getD g 0) 0) (phi.getD (startsN.getD g 0 + 1) 0))
        else none) := by
  have hrs : (massStore pt eta phi startsN stopsN).readIdx "starts" g =
      .ok (startsN.getD g 0) := by
    unfold massStore Store.readIdx
    simp only [List.lookup, beq_self_eq_true]
    rw [dif_pos hg, List.getD_eq_getElem startsN 0 hg]
    rfl
  have hrt : (massStore pt eta phi startsN stopsN).readIdx "stops" g =
      .ok (stopsN.getD g 0) := by
    unfold massStore Store.readIdx
    simp only [List.lookup, beq_self_eq_true,
      show (("stops" == "starts") = false) from by decide]
    rw [dif_pos hg', List.getD_eq_getElem stopsN 0 hg']
    rfl
  have hrd : ∀ (xs : List R) (nm : String), (massStore pt eta phi startsN stopsN).data.lookup nm = some xs →
      ∀ k, k < xs.length →
      (massStore pt eta phi startsN stopsN).readData nm k = .ok (xs.getD k 0) := by
    intro xs nm hl k hk
    unfold Store.readData
    rw [hl]
    dsimp only
    rw [dif_pos hk, List.getD_eq_getElem xs 0 hk]
    rfl
  simp only [massBody, Proxy.attr, eventsSchema]
  simp only [List.lookup, beq_self_eq_true]
  simp only [makeProxyPV, exBind_ok, PV.asProxy, Proxy.plen, hrs, hrt]
  have hitem : ∀ (i : Int), 0 ≤ i →
      i.toNat < stopsN.getD g 0 - startsN.getD g 0 →
      Proxy.item (massStore pt eta phi startsN stopsN)
        ⟨.list "starts" "stops" (.record [("pt", .prim "pt"),
          ("eta", .prim "eta"), ("phi", .prim "phi")]), g⟩ i =
      .ok (.px ⟨.record [("pt", .prim "pt"), ("eta", .prim "eta"),
        ("phi", .prim "phi")], startsN.getD g 0 + i.toNat⟩) := by
    intro i h0 hi
    simp only [Proxy.item, hrs, hrt, exBind_ok]
    rw [if_neg (by omega), if_pos hi]
    rfl
  by_cases h2 : 2 ≤ stopsN.getD g 0 - startsN.getD g 0
  · rw [if_pos h2, if_pos h2]
    rw [hitem 0 (by decide) (by omega), exBind_ok]
    rw [hitem 1 (by decide) (by omega), exBind_ok]
    simp only [PV.asProxy, exBind_ok, Proxy.attr, List.lookup,
      beq_self_eq_true, makeProxyPV, Int.toNat_zero, Int.toNat_one, add_zero,
      show (("eta" == "pt") = false) from by decide,
      show (("phi" == "pt") = false) from by decide,
      show (("phi" == "eta") = false) from by decide]
    rw [hrd pt "pt" rfl (startsN.getD g 0) (by omega), exBind_ok]
    simp only [PV.asVal, exBind_ok]
    rw [hrd pt "pt" rfl (startsN.getD g 0 + 1) (by omega), exBind_ok]
    simp only [PV.asVal, exBind_ok]
    rw [hrd eta "eta" rfl (startsN.getD g 0) (by omega), exBind_ok]
    simp only [PV.asVal, exBind_ok]
    rw [hrd eta "eta" rfl (startsN.getD g 0 + 1) (by omega), exBind_ok]
    simp only [PV.asVal, exBind_ok]
    rw [hrd phi "phi" rfl (startsN.getD g 0) (by omega), exBind_ok]
    simp only [PV.asVal, exBind_ok]
    rw [hrd phi "phi" rfl (startsN.getD g 0 + 1) (by omega), exBind_ok]
    simp only [PV.asVal, exBind_ok]
  · rw [if_neg h2, if_neg h2]

theorem refMasses_cons {R : Type} [CommRing R] (ops : MathOps R)
    (pt eta phi : List R) (a b : Nat) (s t : List Nat) :
    refMasses ops pt eta phi (a :: s) (b :: t) =
      if 2 ≤ b - a then
        invMass ops (pt.getD a 0) (pt.getD (a + 1) 0) (eta.getD a 0)
            (eta.getD (a + 1) 0) (phi.getD a 0) (phi.getD (a + 1) 0) ::
          refMasses ops pt eta phi s t
      else refMasses ops pt eta phi s t := by
  unfold refMasses
  rw [List.zip_cons_cons, List.filter_cons]
  by_cases h : 2 ≤ b - a
  · rw [if_pos (by simpa using h), if_pos h, List.map_cons]
  · rw [if_neg (by simpa using h), if_neg h]

theorem massLoop_eval {R : Type} [CommRing R] (ops : MathOps R)
    (pt eta phi : List R) (startsN stopsN : List Nat)
    (hlen : stopsN.length = startsN.length)
    (hb : ∀ i, i < startsN.length →
      startsN.getD i 0 ≤ stopsN.getD i 0 ∧ stopsN.getD i 0 ≤ pt.length)
    (heta : eta.length = pt.length) (hphi : phi.length = pt.length) :
    ∀ (m k : Nat), k + m = startsN.length →
      massLoop ops (massStore pt eta phi startsN stopsN) eventsSchema
        (List.range' k m) =
        .ok (refMasses ops pt eta phi (startsN.drop k) (stopsN.drop k)) := by
  intro m
  induction m with
  | zero =>
    intro k hk
    have h1 : startsN.drop k = [] := List.drop_eq_nil_of_le (by omega)
    have h2 : stopsN.drop k = [] := List.drop_eq_nil_of_le (by omega)
    rw [h1, h2]
    rfl
  | succ m ih =>
    intro k hk
    rw [List.range'_succ]
    simp only [massLoop]
    have hbk := hb k (by omega)
    rw [massBody_eval ops pt eta phi startsN stopsN k (by omega) (by omega)
      hbk.1 hbk.2 heta hphi, exBind_ok]
    rw [ih (k + 1) (by omega), exBind_ok]
    rw [getD_drop_cons startsN 0 k (by omega),
      getD_drop_cons stopsN 0 k (by omega)]
    by_cases h2 : 2 ≤ stopsN.getD k 0 - startsN.getD k 0
    · rw [if_pos h2, refMasses_cons, if_pos h2]
    · rw [if_neg h2, refMasses_cons, if_neg h2]

theorem has2muons_map : ∀ (sN tN : List Nat),
    has2muons (sN.map Int.ofNat) (tN.map Int.ofNat) =
      List.zipWith (fun a b => decide (2 ≤ b - a)) sN tN := by
  intro sN
  induction sN with
  | nil => intro tN; cases tN <;> rfl
  | cons a as ih =>
    intro tN
    cases tN with
    | nil => rfl
    | cons b bs =>
      simp only [has2muons, List.map_cons, List.zipWith_cons_cons] at ih ⊢
      rw [ih]
      congr 1
      exact decide_eq_decide.mpr (by rw [Int.ofNat_eq_natCast, Int.ofNat_eq_natCast]; omega)

theorem mem_kept {sN tN : List Nat} {x : Nat}
    (hx : x ∈ maskSelect sN
      (List.zipWith (fun a b => decide (2 ≤ b - a)) sN tN)) :
    ∃ i, i < sN.length ∧ i < tN.length ∧ sN.getD i 0 = x ∧
      2 ≤ tN.getD i 0 - sN.getD i 0 := by
  rw [maskSelect_zipWith, List.mem_map] at hx
  obtain ⟨q, hq, hq1⟩ := hx
  rw [List.mem_filter] at hq
  obtain ⟨hqz, hqp⟩ := hq
  obtain ⟨i, h1, h2, h3, h4⟩ := mem_zip_idx hqz 0 0
  refine ⟨i, h1, h2, by rw [h3, hq1], ?_⟩
  rw [h3, h4]
  exact of_decide_eq_true hqp

theorem npGather_map_ofNat {R : Type} (xs : List R) (d : R) :
    ∀ (ks : List Nat), (∀ k ∈ ks, k < xs.length) →
      npGather xs (ks.map Int.ofNat) = .ok (ks.map (fun k => xs.getD k d)) := by
  intro ks
  induction ks with
  | nil => intro _; rfl
  | cons k ks ih =>
    intro h
    simp only [npGather, List.map_cons, mapME]
    rw [npRead_ofNat_ok xs d k (h k (by simp)), exBind_ok]
    have := ih (fun x hx => h x (by simp [hx]))
    simp only [npGather] at this
    rw [this, exBind_ok]

theorem massArr_map6 {R β : Type} [CommRing R] (ops : MathOps R)
    (g1 g2 g3 g4 g5 g6 : β → R) :
    ∀ (l : List β),
      massArr ops (l.map g1) (l.map g2) (l.map g3) (l.map g4) (l.map g5)
        (l.map g6) =
        l.map (fun x => invMass ops (g1 x) (g2 x) (g3 x) (g4 x) (g5 x) (g6 x)) := by
  intro l
  induction l with
  | nil => rfl
  | cons x xs ih => simp only [List.map_cons, massArr, ih]

theorem numpy_side_eval {R : Type} [CommRing R] (ops : MathOps R)
    (pt eta phi : List R) (startsN stopsN : List Nat)
    (hb : ∀ i, i < startsN.length →
      startsN.getD i 0 ≤ stopsN.getD i 0 ∧ stopsN.getD i 0 ≤ pt.length)
    (heta : eta.length = pt.length) (hphi : phi.length = pt.length) :
    mass_equivalent_numpy ops (startsN.map Int.ofNat) (stopsN.map Int.ofNat)
      pt eta phi = .ok (refMasses ops pt eta phi startsN stopsN) := by
  set kept := maskSelect startsN
    (List.zipWith (fun a b => decide (2 ≤ b - a)) startsN stopsN) with hkept
  have hfir : firsts (startsN.map Int.ofNat) (stopsN.map Int.ofNat) =
      kept.map Int.ofNat := by
    unfold firsts
    rw [has2muons_map, maskSelect_map]
  have hsec : seconds (startsN.map Int.ofNat) (stopsN.map Int.ofNat) =
      (kept.map (fun k => k + 1)).map Int.ofNat := by
    unfold seconds
    rw [hfir, List.map_map, List.map_map]
    rfl
  have hkb : ∀ k ∈ kept, k + 1 < pt.length := by
    intro k hk
    obtain ⟨i, h1, h2, h3, h4⟩ := mem_kept hk
    have := hb i h1
    omega
  have hk1 : ∀ k ∈ kept, k < pt.length := by
    intro k hk
    have := hkb k hk
    omega
  have hk2 : ∀ k ∈ kept.map (fun k => k + 1), k < pt.length := by
    intro k hk
    rw [List.mem_map] at hk
    obtain ⟨y, hy, rfl⟩ := hk
    exact hkb y hy
  unfold mass_equivalent_numpy
  rw [hfir, hsec]
  rw [npGather_map_ofNat pt 0 kept hk1, exBind_ok]
  rw [npGather_map_ofNat pt 0 _ hk2, exBind_ok]
  rw [npGather_map_ofNat eta 0 kept
    (by intro k hk; rw [heta]; exact hk1 k hk), exBind_ok]
  rw [npGather_map_ofNat eta 0 _
    (by intro k hk; rw [heta]; exact hk2 k hk), exBind_ok]
  rw [npGather_map_ofNat phi 0 kept
    (by intro k hk; rw [hphi]; exact hk1 k hk), exBind_ok]
  rw [npGather_map_ofNat phi 0 _
    (by intro k hk; rw [hphi]; exact hk2 k hk), exBind_ok]
  rw [List.map_map, List.map_map, List.map_map]
  rw [massArr_map6]
  rw [hkept, maskSelect_zipWith, List.map_map]
  rfl

/-- C1: the Compiled-Path Translator's flat-array rewrite of the
invariant-mass loop is value-for-value equivalent to running the
untranslated proxy loop: on any dataset with valid starts/stops delimiting
the muon kinematics arrays, `mass_oamap` over proxies and
`mass_equivalent_numpy` over the flat arrays both succeed with the same
output at every position. -/
theorem mass_oamap_eq_mass_equivalent_numpy {R : Type} [CommRing R]
    (ops : MathOps R) (pt eta phi : List R) (startsN stopsN : List Nat)
    (hlen : stopsN.length = startsN.length)
    (hb : ∀ i, i < startsN.length →
      startsN.getD i 0 ≤ stopsN.getD i 0 ∧ stopsN.getD i 0 ≤ pt.length)
    (heta : eta.length = pt.length) (hphi : phi.length = pt.length) :
    mass_oamap ops ⟨eventsSchema, List.range startsN.length,
        massStore pt eta phi startsN stopsN⟩ =
      .ok (refMasses ops pt eta phi startsN stopsN) ∧
    mass_equivalent_numpy ops (startsN.map Int.ofNat) (stopsN.map Int.ofNat)
        pt eta phi = .ok (refMasses ops pt eta phi startsN stopsN) := by
  constructor
  · unfold mass_oamap
    dsimp only
    rw [List.range_eq_range']
    rw [massLoop_eval ops pt eta phi startsN stopsN hlen hb heta hphi
      startsN.length 0 (by omega)]
    simp
  · exact numpy_side_eval ops pt eta phi startsN stopsN hb heta hphi

/-- Witness for C1 on the concrete three-event integer dataset with muon
multiplicities 2, 0 and 1: both computations succeed and agree. -/
theorem mass_oamap_eq_mass_equivalent_numpy_witness :
    mass_oamap intOps ⟨eventsSchema, List.range ([0, 2, 2] : List Nat).length,
        massStore ([10, 20, 30] : List Int) [1, 2, 3] [5, 6, 7]
          [0, 2, 2] [2, 2, 3]⟩ =
      .ok (refMasses intOps [10, 20, 30] [1, 2, 3] [5, 6, 7]
        [0, 2, 2] [2, 2, 3]) ∧
    mass_equivalent_numpy intOps (([0, 2, 2] : List Nat).map Int.ofNat)
        (([2, 2, 3] : List Nat).map Int.ofNat) [10, 20, 30] [1, 2, 3]
        [5, 6, 7] =
      .ok (refMasses intOps [10, 20, 30] [1, 2, 3] [5, 6, 7]
        [0, 2, 2] [2, 2, 3]) :=
  mass_oamap_eq_mass_equivalent_numpy intOps [10, 20, 30] [1, 2, 3]
    [5, 6, 7] [0, 2, 2] [2, 2, 3] rfl (by decide) rfl rfl
